import Mathlib

/-!
Verification of `Projet_MapReduce/recherche.py` (PageRank-based search
engine).

The Python functions are embedded shallowly:
* Python `dict` (insertion-ordered, unique keys) and `defaultdict(float)`
  become association lists `List (String × α)`; `dadd` models
  `d[k] += v` with a `0.0` default.
* Python `float` arithmetic is modelled exactly over `ℚ`
  (the damping factor `0.85` is `17/20`).
* Python `set` becomes a first-occurrence deduplicated `List String`
  (claims only use its membership and cardinality).
* File I/O and HTML parsing (`glob`, `BeautifulSoup`) are external
  collaborators: `read_html_files` receives each file as its basename
  paired with the list of extracted `href` values; body text is not used
  by any ranking claim and is omitted.
* The `unidecode(term.lower())` normalization used by `search` comes from
  an external library; it is abstracted as a parameter `norm`, so every
  theorem about `search` holds for the real normalizer in particular.

Default argument values of the Python functions (`damping_factor=0.85`,
`num_pages=1`, `iterations=10`) are passed explicitly at call sites.
-/

set_option autoImplicit false

namespace Recherche

/-- First-occurrence lookup in an association list: Python `d[k]` /
`d.get(k)` for a dict with unique keys. -/
def dlookup {α : Type} (d : List (String × α)) (k : String) : Option α :=
  match d with
  | [] => none
  | p :: rest => if p.1 = k then some p.2 else dlookup rest k

/-- Python `k in d`. -/
def containsKey {α : Type} (d : List (String × α)) (k : String) : Bool :=
  (dlookup d k).isSome

/-- Python `d[k] += v` on a `defaultdict(float)`: add `v` to the value at
the first occurrence of `k`, appending `(k, 0.0 + v)` when `k` is absent.
Also models `d[k] += v` on a plain dict whose key `k` is present. -/
def dadd (d : List (String × ℚ)) (k : String) (v : ℚ) : List (String × ℚ) :=
  match d with
  | [] => [(k, v)]
  | p :: rest => if p.1 = k then (p.1, p.2 + v) :: rest else p :: dadd rest k v

/-- Number of occurrences of `a` in `l`. -/
def countOcc (l : List String) (a : String) : ℕ :=
  match l with
  | [] => 0
  | b :: t => (if b = a then 1 else 0) + countOcc t a

/-- Keys of an association list, in order. -/
def keys {α : Type} (d : List (String × α)) : List String :=
  d.map Prod.fst

/-- Embedding of `read_html_files` (lines 9–26).  HTML parsing and the
directory walk are external collaborators: each input file is given as
its basename together with the extracted `href` list, in directory
order (basenames are distinct, as files of one directory).  Returns the
`pages` dict and the `all_links` set (`page_contents` carries no link
data and is omitted).  The set is modelled as a first-occurrence
deduplicated list. -/
def read_html_files (files : List (String × List String)) :
    List (String × List String) × List String :=
  files.foldl
    (fun acc f =>
      (acc.1 ++ [f],
       f.2.foldl (fun s link => if link ∈ s then s else s ++ [link]) acc.2))
    ([], [])

/-- Embedding of `initialize_page_ranks` (lines 29–36):
`num_pages = len(all_links) if all_links else 1`, every member of
`all_links` gets `1.0 / num_pages`, then every link of `pages` not yet
present is appended with the same score. -/
def initialize_page_ranks (pages : List (String × List String))
    (all_links : List String) : List (String × ℚ) :=
  let num_pages : ℚ := if all_links.isEmpty then 1 else (all_links.length : ℚ)
  let page_ranks := all_links.map (fun page => (page, 1 / num_pages))
  pages.foldl
    (fun pr pl =>
      pl.2.foldl
        (fun pr2 link =>
          if containsKey pr2 link then pr2 else pr2 ++ [(link, 1 / num_pages)])
        pr)
    page_ranks

/-- Embedding of `map_page_rank` (lines 39–46): each page with
`num_links > 0` and present in `page_ranks` adds
`page_ranks[page] / num_links` to `contributions[link]` for every
occurrence of `link` in its link list. -/
def map_page_rank (pages : List (String × List String))
    (page_ranks : List (String × ℚ)) : List (String × ℚ) :=
  pages.foldl
    (fun contributions pl =>
      if 0 < pl.2.length ∧ containsKey page_ranks pl.1 = true then
        pl.2.foldl
          (fun c link =>
            dadd c link ((dlookup page_ranks pl.1).getD 0 / (pl.2.length : ℚ)))
          contributions
      else contributions)
    []

/-- Embedding of `reduce_page_rank` (lines 48–52): build
`new_ranks = {page: (1 - damping_factor) / num_pages for page in contributions}`
and then do `new_ranks[page] += damping_factor * contribution` for every
entry of `contributions`. -/
def reduce_page_rank (contributions : List (String × ℚ))
    (damping_factor : ℚ) (num_pages : ℚ) : List (String × ℚ) :=
  let new_ranks :=
    contributions.map (fun pc => (pc.1, (1 - damping_factor) / num_pages))
  contributions.foldl
    (fun nr pc => dadd nr pc.1 (damping_factor * pc.2)) new_ranks

/-- The `for _ in range(iterations)` loop of `calculate_page_rank`
(lines 58–60), with `num_pages` fixed before the loop. -/
def pageRankLoop (pages : List (String × List String)) (num_pages : ℚ) :
    ℕ → List (String × ℚ) → List (String × ℚ)
  | 0, page_ranks => page_ranks
  | n + 1, page_ranks =>
      pageRankLoop pages num_pages n
        (reduce_page_rank (map_page_rank pages page_ranks) (17/20) num_pages)

/-- Embedding of `calculate_page_rank` (lines 55–61):
`num_pages = len(page_ranks)` is taken from the freshly initialized
table, and `reduce_page_rank` is called with the default
`damping_factor=0.85`. -/
def calculate_page_rank (pages : List (String × List String))
    (all_links : List String) (iterations : ℕ) : List (String × ℚ) :=
  let page_ranks := initialize_page_ranks pages all_links
  pageRankLoop pages ((page_ranks.length : ℚ)) iterations page_ranks

/-- Splitting a character list on whitespace runs (auxiliary for
`pySplit`); `acc` holds the current in-progress piece, reversed. -/
def splitWSAux : List Char → List Char → List (List Char)
  | [], acc => if acc.isEmpty then [] else [acc.reverse]
  | c :: rest, acc =>
      if c.isWhitespace then
        if acc.isEmpty then splitWSAux rest []
        else acc.reverse :: splitWSAux rest []
      else splitWSAux rest (c :: acc)

/-- Python `query.split()` (no separator argument): split on whitespace
runs, dropping empty pieces. -/
def pySplit (s : String) : List String :=
  (splitWSAux s.toList []).map (fun cs => String.mk cs)

/-- The `results` defaultdict built by `search` (lines 75–80) before
filtering and sorting: for each normalized query term occurrence present
in the index, each posting `page` receives `page_ranks.get(page, 0)`. -/
def search_totals (norm : String → String) (query : String)
    (inverted_index : List (String × List String))
    (page_ranks : List (String × ℚ)) : List (String × ℚ) :=
  let terms := (pySplit query).map norm
  terms.foldl
    (fun results term =>
      match dlookup inverted_index term with
      | some postings =>
          postings.foldl
            (fun r page => dadd r page ((dlookup page_ranks page).getD 0))
            results
      | none => results)
    []

/-- Stable insertion of a pair into a score-descending list, matching the
stability of Python `sorted(..., key=lambda x: x[1], reverse=True)`:
`a` goes before the first element whose score is not larger. -/
def insertDesc (a : String × ℚ) : List (String × ℚ) → List (String × ℚ)
  | [] => [a]
  | b :: t => if a.2 < b.2 then b :: insertDesc a t else a :: b :: t

/-- Stable sort by score, descending (Python
`sorted(..., key=lambda x: x[1], reverse=True)`). -/
def sortDesc : List (String × ℚ) → List (String × ℚ)
  | [] => []
  | a :: t => insertDesc a (sortDesc t)

/-- Embedding of `search` (lines 74–81): accumulate `search_totals`, keep
the entries with `rank > 0`, sort by score descending. -/
def search (norm : String → String) (query : String)
    (inverted_index : List (String × List String))
    (page_ranks : List (String × ℚ)) : List (String × ℚ) :=
  sortDesc ((search_totals norm query inverted_index page_ranks).filter
    (fun pr => 0 < pr.2))

/-- Spec-side map-phase contribution of one page entry `pl` to `node`: a
page with at least one outgoing link and a current score sends
`score(page)/outDegree(page)` to `node` once per occurrence of `node` in
its link list; every other page sends nothing. -/
def specContribution (page_ranks : List (String × ℚ)) (node : String)
    (pl : String × List String) : ℚ :=
  if 0 < pl.2.length ∧ containsKey page_ranks pl.1 = true then
    (countOcc pl.2 node : ℚ) * ((dlookup page_ranks pl.1).getD 0 / (pl.2.length : ℚ))
  else 0

/-- Spec-side total map-phase contribution received by `node`. -/
def specContribSum (pages : List (String × List String))
    (page_ranks : List (String × ℚ)) (node : String) : ℚ :=
  (pages.map (specContribution page_ranks node)).sum

/-- Spec-side score one normalized query term gives to `doc`: `doc`'s
current rank (0 when absent from the rank table) once per occurrence of
`doc` in the term's posting list, 0 when the term is not indexed. -/
def specTermScore (inverted_index : List (String × List String))
    (page_ranks : List (String × ℚ)) (doc : String) (term : String) : ℚ :=
  match dlookup inverted_index term with
  | some postings => (countOcc postings doc : ℚ) * (dlookup page_ranks doc).getD 0
  | none => 0

/-- Total score of `doc`, summed over ALL normalized query term
occurrences (what the code computes). -/
def specQueryScore (norm : String → String) (query : String)
    (inverted_index : List (String × List String))
    (page_ranks : List (String × ℚ)) (doc : String) : ℚ :=
  (((pySplit query).map norm).map
    (specTermScore inverted_index page_ranks doc)).sum

/-- Modelled from the spec (§4.4 step 2: "For each distinct query term
present in the index ..."): total score of `doc` summed over the
DISTINCT normalized query terms only.  Written to compare the spec's
wording against `search`. -/
def specDistinctScore (norm : String → String) (query : String)
    (inverted_index : List (String × List String))
    (page_ranks : List (String × ℚ)) (doc : String) : ℚ :=
  (((pySplit query).map norm).dedup.map
    (specTermScore inverted_index page_ranks doc)).sum

/-! ### Dictionary lemmas -/

@[simp]
theorem keys_nil {α : Type} : keys ([] : List (String × α)) = [] := rfl

@[simp]
theorem keys_cons {α : Type} (p : String × α) (d : List (String × α)) :
    keys (p :: d) = p.1 :: keys d := rfl

theorem keys_append {α : Type} (d e : List (String × α)) :
    keys (d ++ e) = keys d ++ keys e := by
  simp [keys]

@[simp]
theorem dlookup_nil {α : Type} (k : String) :
    dlookup ([] : List (String × α)) k = none := rfl

theorem dlookup_cons {α : Type} (p : String × α) (d : List (String × α))
    (k : String) :
    dlookup (p :: d) k = if p.1 = k then some p.2 else dlookup d k := rfl

theorem dlookup_eq_none {α : Type} (d : List (String × α)) (k : String) :
    dlookup d k = none ↔ ¬ k ∈ keys d := by
  induction d with
  | nil => simp
  | cons p rest ih =>
      by_cases h : p.1 = k
      · simp [dlookup_cons, h]
      · simp only [dlookup_cons, if_neg h, keys_cons, List.mem_cons, not_or, ih]
        constructor
        · intro hn
          exact ⟨fun he => h he.symm, hn⟩
        · intro hn
          exact hn.2

theorem containsKey_iff_mem_keys {α : Type} (d : List (String × α))
    (k : String) : containsKey d k = true ↔ k ∈ keys d := by
  rw [containsKey, Option.isSome_iff_ne_none]
  rw [ne_eq, dlookup_eq_none, not_not]

theorem containsKey_eq_false_iff {α : Type} (d : List (String × α))
    (k : String) : containsKey d k = false ↔ ¬ k ∈ keys d := by
  rw [← dlookup_eq_none, containsKey]
  cases dlookup d k <;> simp

theorem mem_of_dlookup {α : Type} (d : List (String × α)) (k : String)
    (v : α) (h : dlookup d k = some v) : (k, v) ∈ d := by
  induction d with
  | nil => simp at h
  | cons p rest ih =>
      rw [dlookup_cons] at h
      by_cases hp : p.1 = k
      · rw [if_pos hp] at h
        injection h with h2
        have hpv : p = (k, v) := by
          cases p
          simp only [Prod.mk.injEq]
          exact ⟨hp, h2⟩
        rw [← hpv]
        exact List.mem_cons_self p rest
      · rw [if_neg hp] at h
        exact List.mem_cons_of_mem _ (ih h)

theorem dlookup_append_of_some {α : Type} (d e : List (String × α))
    (k : String) (v : α) (h : dlookup d k = some v) :
    dlookup (d ++ e) k = some v := by
  induction d with
  | nil => simp at h
  | cons p rest ih =>
      rw [List.cons_append, dlookup_cons]
      rw [dlookup_cons] at h
      by_cases hp : p.1 = k
      · rw [if_pos hp] at h
        rwa [if_pos hp]
      · rw [if_neg hp] at h
        rw [if_neg hp]
        exact ih h

theorem dlookup_dadd (d : List (String × ℚ)) (k : String) (v : ℚ)
    (k2 : String) :
    dlookup (dadd d k v) k2 =
      if k = k2 then some ((dlookup d k).getD 0 + v) else dlookup d k2 := by
  induction d with
  | nil =>
      by_cases h : k = k2
      · simp [dadd, dlookup_cons, h]
      · simp [dadd, dlookup_cons, h]
  | cons p rest ih =>
      show dlookup (if p.1 = k then (p.1, p.2 + v) :: rest else p :: dadd rest k v) k2 = _
      by_cases hp : p.1 = k
      · rw [if_pos hp]
        by_cases h2 : k = k2
        · rw [if_pos h2, dlookup_cons, if_pos (hp.trans h2), dlookup_cons,
            if_pos hp]
          simp
        · rw [if_neg h2, dlookup_cons, dlookup_cons]
          have : ¬ p.1 = k2 := fun hc => h2 (hp.symm.trans hc)
          rw [if_neg this, if_neg this]
      · rw [if_neg hp]
        by_cases h2 : k = k2
        · rw [if_pos h2, dlookup_cons]
          have hp2 : ¬ p.1 = k2 := fun hc => hp (hc.trans h2.symm)
          rw [if_neg hp2, ih, if_pos h2, dlookup_cons, if_neg hp]
        · rw [if_neg h2, dlookup_cons, dlookup_cons, ih, if_neg h2]

theorem dlookup_dadd_self (d : List (String × ℚ)) (k : String) (v : ℚ) :
    dlookup (dadd d k v) k = some ((dlookup d k).getD 0 + v) := by
  rw [dlookup_dadd, if_pos rfl]

theorem dlookup_dadd_ne (d : List (String × ℚ)) (k : String) (v : ℚ)
    (k2 : String) (h : ¬ k = k2) : dlookup (dadd d k v) k2 = dlookup d k2 := by
  rw [dlookup_dadd, if_neg h]

theorem containsKey_dadd (d : List (String × ℚ)) (k : String) (v : ℚ)
    (k2 : String) :
    containsKey (dadd d k v) k2 = true ↔
      (containsKey d k2 = true ∨ k = k2) := by
  by_cases h : k = k2
  · rw [containsKey, dlookup_dadd, if_pos h]
    simp [h]
  · rw [containsKey, dlookup_dadd, if_neg h]
    rw [← containsKey]
    simp [h]

theorem keys_dadd (d : List (String × ℚ)) (k : String) (v : ℚ) :
    keys (dadd d k v) =
      if containsKey d k = true then keys d else keys d ++ [k] := by
  induction d with
  | nil => simp [dadd, containsKey]
  | cons p rest ih =>
      show keys (if p.1 = k then (p.1, p.2 + v) :: rest else p :: dadd rest k v)
        = _
      by_cases hp : p.1 = k
      · rw [if_pos hp]
        have : containsKey (p :: rest) k = true := by
          rw [containsKey, dlookup_cons, if_pos hp]
          rfl
        rw [if_pos this, keys_cons, keys_cons]
      · rw [if_neg hp, keys_cons, ih]
        have hck : containsKey (p :: rest) k = containsKey rest k := by
          rw [containsKey, containsKey, dlookup_cons, if_neg hp]
        rw [hck]
        by_cases hc : containsKey rest k = true
        · rw [if_pos hc, if_pos hc, keys_cons]
        · rw [if_neg hc, if_neg hc, keys_cons, List.cons_append]

theorem nodup_keys_dadd (d : List (String × ℚ)) (k : String) (v : ℚ)
    (h : (keys d).Nodup) : (keys (dadd d k v)).Nodup := by
  rw [keys_dadd]
  by_cases hc : containsKey d k = true
  · rwa [if_pos hc]
  · rw [if_neg hc]
    have hk : ¬ k ∈ keys d := (containsKey_eq_false_iff d k).mp
      (Bool.eq_false_iff.mpr hc)
    simp [List.nodup_append, h, hk]

theorem mem_dadd_nonneg (d : List (String × ℚ)) (k : String) (v : ℚ)
    (hd : ∀ p ∈ d, 0 ≤ p.2) (hv : 0 ≤ v) :
    ∀ p ∈ dadd d k v, 0 ≤ p.2 := by
  induction d with
  | nil =>
      intro p hp
      simp only [dadd, List.mem_singleton] at hp
      rw [hp]
      exact hv
  | cons q rest ih =>
      intro p hp
      have hq : 0 ≤ q.2 := hd q (List.mem_cons_self q rest)
      have hrest : ∀ r ∈ rest, 0 ≤ r.2 :=
        fun r hr => hd r (List.mem_cons_of_mem q hr)
      by_cases hqk : q.1 = k
      · simp only [dadd, if_pos hqk, List.mem_cons] at hp
        rcases hp with hp | hp
        · rw [hp]
          exact add_nonneg hq hv
        · exact hrest p hp
      · simp only [dadd, if_neg hqk, List.mem_cons] at hp
        rcases hp with hp | hp
        · rw [hp]
          exact hq
        · exact ih hrest p hp

/-! ### Folded `dadd` over a list of keys (inner loops of
`map_page_rank` and `search`) -/

theorem foldl_dadd_getD (g : String → ℚ) (l : List String)
    (acc : List (String × ℚ)) (node : String) :
    (dlookup (l.foldl (fun c x => dadd c x (g x)) acc) node).getD 0
      = (dlookup acc node).getD 0 + (countOcc l node : ℚ) * g node := by
  induction l generalizing acc with
  | nil => simp [countOcc]
  | cons x t ih =>
      rw [List.foldl_cons, ih]
      by_cases hx : x = node
      · rw [hx, dlookup_dadd_self, Option.getD_some]
        have hco : countOcc (node :: t) node = 1 + countOcc t node := by
          simp [countOcc]
        rw [hco]
        push_cast
        ring
      · rw [dlookup_dadd_ne _ _ _ _ hx]
        have : countOcc (x :: t) node = countOcc t node := by
          simp [countOcc, hx]
        rw [this]

theorem foldl_dadd_containsKey (g : String → ℚ) (l : List String)
    (acc : List (String × ℚ)) (node : String) :
    containsKey (l.foldl (fun c x => dadd c x (g x)) acc) node = true ↔
      (containsKey acc node = true ∨ node ∈ l) := by
  induction l generalizing acc with
  | nil => simp
  | cons x t ih =>
      rw [List.foldl_cons, ih, containsKey_dadd]
      constructor
      · rintro ((h | h) | h)
        · exact Or.inl h
        · exact Or.inr (h ▸ List.mem_cons_self x t)
        · exact Or.inr (List.mem_cons_of_mem x h)
      · rintro (h | h)
        · exact Or.inl (Or.inl h)
        · rcases List.mem_cons.mp h with h | h
          · exact Or.inl (Or.inr h.symm)
          · exact Or.inr h

theorem foldl_dadd_nodup (g : String → ℚ) (l : List String)
    (acc : List (String × ℚ)) (h : (keys acc).Nodup) :
    (keys (l.foldl (fun c x => dadd c x (g x)) acc)).Nodup := by
  induction l generalizing acc with
  | nil => exact h
  | cons x t ih =>
      rw [List.foldl_cons]
      exact ih _ (nodup_keys_dadd _ _ _ h)

theorem foldl_dadd_nonneg (g : String → ℚ) (l : List String)
    (acc : List (String × ℚ)) (hacc : ∀ p ∈ acc, 0 ≤ p.2)
    (hg : ∀ x ∈ l, 0 ≤ g x) :
    ∀ p ∈ l.foldl (fun c x => dadd c x (g x)) acc, 0 ≤ p.2 := by
  induction l generalizing acc with
  | nil => exact hacc
  | cons x t ih =>
      rw [List.foldl_cons]
      exact ih _
        (mem_dadd_nonneg _ _ _ hacc (hg x (List.mem_cons_self x t)))
        (fun y hy => hg y (List.mem_cons_of_mem x hy))

/-! ### Folded `dadd` over a list of pairs (the loop of
`reduce_page_rank`) -/

theorem foldl_dadd_pairs_of_none (f : String × ℚ → ℚ)
    (l : List (String × ℚ)) (acc : List (String × ℚ)) (k : String)
    (h : dlookup l k = none) :
    dlookup (l.foldl (fun nr pc => dadd nr pc.1 (f pc)) acc) k
      = dlookup acc k := by
  induction l generalizing acc with
  | nil => rfl
  | cons p t ih =>
      rw [dlookup_cons] at h
      by_cases hp : p.1 = k
      · rw [if_pos hp] at h
        simp at h
      · rw [if_neg hp] at h
        rw [List.foldl_cons, ih _ h, dlookup_dadd_ne _ _ _ _ hp]

theorem foldl_dadd_pairs_of_some (f : String × ℚ → ℚ)
    (l : List (String × ℚ)) (acc : List (String × ℚ)) (k : String) (v : ℚ)
    (hnd : (keys l).Nodup) (h : dlookup l k = some v) :
    dlookup (l.foldl (fun nr pc => dadd nr pc.1 (f pc)) acc) k
      = some ((dlookup acc k).getD 0 + f (k, v)) := by
  induction l generalizing acc with
  | nil => simp at h
  | cons p t ih =>
      rw [keys_cons, List.nodup_cons] at hnd
      rw [dlookup_cons] at h
      by_cases hp : p.1 = k
      · rw [if_pos hp] at h
        injection h with h2
        have ht : dlookup t k = none := by
          rw [dlookup_eq_none]
          rw [← hp]
          exact hnd.1
        rw [List.foldl_cons, foldl_dadd_pairs_of_none _ _ _ _ ht]
        have hpkv : p = (k, v) := by
          cases p
          simp only [Prod.mk.injEq]
          exact ⟨hp, h2⟩
        rw [hpkv, dlookup_dadd_self]
      · rw [if_neg hp] at h
        rw [List.foldl_cons, ih (dadd acc p.1 (f p)) hnd.2 h,
          dlookup_dadd_ne _ _ _ _ hp]

theorem foldl_dadd_pairs_nonneg (f : String × ℚ → ℚ)
    (l : List (String × ℚ)) (acc : List (String × ℚ))
    (hacc : ∀ p ∈ acc, 0 ≤ p.2) (hf : ∀ pc ∈ l, 0 ≤ f pc) :
    ∀ p ∈ l.foldl (fun nr pc => dadd nr pc.1 (f pc)) acc, 0 ≤ p.2 := by
  induction l generalizing acc with
  | nil => exact hacc
  | cons q t ih =>
      rw [List.foldl_cons]
      exact ih _
        (mem_dadd_nonneg _ _ _ hacc (hf q (List.mem_cons_self q t)))
        (fun y hy => hf y (List.mem_cons_of_mem q hy))

/-- Lookup in a key-preserving value map. -/
theorem dlookup_mapVal (g : String × ℚ → ℚ) (c : List (String × ℚ))
    (k : String) :
    dlookup (c.map (fun pc => (pc.1, g pc))) k
      = (dlookup c k).map (fun v => g (k, v)) := by
  induction c with
  | nil => rfl
  | cons p t ih =>
      rw [List.map_cons, dlookup_cons, dlookup_cons]
      by_cases hp : p.1 = k
      · rw [if_pos hp, if_pos hp, Option.map_some']
        rw [← hp]
      · rw [if_neg hp, if_neg hp, ih]

/-! ### Characterization of `map_page_rank` -/

theorem dlookup_getD_nonneg (d : List (String × ℚ)) (k : String)
    (h : ∀ p ∈ d, 0 ≤ p.2) : 0 ≤ (dlookup d k).getD 0 := by
  cases hd : dlookup d k with
  | none => simp
  | some v =>
      rw [Option.getD_some]
      exact h (k, v) (mem_of_dlookup d k v hd)

theorem map_page_rank_foldl_getD (pages : List (String × List String))
    (page_ranks : List (String × ℚ)) (acc : List (String × ℚ))
    (node : String) :
    (dlookup (pages.foldl
        (fun contributions pl =>
          if 0 < pl.2.length ∧ containsKey page_ranks pl.1 = true then
            pl.2.foldl
              (fun c link =>
                dadd c link
                  ((dlookup page_ranks pl.1).getD 0 / (pl.2.length : ℚ)))
              contributions
          else contributions)
        acc) node).getD 0
      = (dlookup acc node).getD 0 + specContribSum pages page_ranks node := by
  induction pages generalizing acc with
  | nil => simp [specContribSum]
  | cons pl t ih =>
      rw [List.foldl_cons, ih]
      have hsum : specContribSum (pl :: t) page_ranks node
          = specContribution page_ranks node pl
            + specContribSum t page_ranks node := by
        simp [specContribSum]
      rw [hsum]
      by_cases hc : 0 < pl.2.length ∧ containsKey page_ranks pl.1 = true
      · rw [if_pos hc, foldl_dadd_getD]
        rw [specContribution, if_pos hc]
        ring
      · rw [if_neg hc]
        rw [specContribution, if_neg hc]
        ring

theorem map_page_rank_getD (pages : List (String × List String))
    (page_ranks : List (String × ℚ)) (node : String) :
    (dlookup (map_page_rank pages page_ranks) node).getD 0
      = specContribSum pages page_ranks node := by
  have h := map_page_rank_foldl_getD pages page_ranks [] node
  simp only [dlookup_nil, Option.getD_none, zero_add] at h
  exact h

theorem map_page_rank_foldl_containsKey (pages : List (String × List String))
    (page_ranks : List (String × ℚ)) (acc : List (String × ℚ))
    (node : String) :
    containsKey (pages.foldl
        (fun contributions pl =>
          if 0 < pl.2.length ∧ containsKey page_ranks pl.1 = true then
            pl.2.foldl
              (fun c link =>
                dadd c link
                  ((dlookup page_ranks pl.1).getD 0 / (pl.2.length : ℚ)))
              contributions
          else contributions)
        acc) node = true ↔
      (containsKey acc node = true ∨
        ∃ pl ∈ pages, 0 < pl.2.length ∧ containsKey page_ranks pl.1 = true
          ∧ node ∈ pl.2) := by
  induction pages generalizing acc with
  | nil => simp
  | cons pl t ih =>
      rw [List.foldl_cons, ih]
      by_cases hc : 0 < pl.2.length ∧ containsKey page_ranks pl.1 = true
      · rw [if_pos hc, foldl_dadd_containsKey]
        constructor
        · rintro ((h | h) | h)
          · exact Or.inl h
          · exact Or.inr ⟨pl, List.mem_cons_self pl t, hc.1, hc.2, h⟩
          · rcases h with ⟨ql, hql, hprop⟩
            exact Or.inr ⟨ql, List.mem_cons_of_mem pl hql, hprop⟩
        · rintro (h | ⟨ql, hql, h1, h2, h3⟩)
          · exact Or.inl (Or.inl h)
          · rcases List.mem_cons.mp hql with rfl | hql2
            · exact Or.inl (Or.inr h3)
            · exact Or.inr ⟨ql, hql2, h1, h2, h3⟩
      · rw [if_neg hc]
        constructor
        · rintro (h | h)
          · exact Or.inl h
          · rcases h with ⟨ql, hql, hprop⟩
            exact Or.inr ⟨ql, List.mem_cons_of_mem pl hql, hprop⟩
        · rintro (h | ⟨ql, hql, h1, h2, h3⟩)
          · exact Or.inl h
          · rcases List.mem_cons.mp hql with rfl | hql2
            · exact absurd ⟨h1, h2⟩ hc
            · exact Or.inr ⟨ql, hql2, h1, h2, h3⟩

theorem map_page_rank_containsKey (pages : List (String × List String))
    (page_ranks : List (String × ℚ)) (node : String) :
    containsKey (map_page_rank pages page_ranks) node = true ↔
      ∃ pl ∈ pages, 0 < pl.2.length ∧ containsKey page_ranks pl.1 = true
        ∧ node ∈ pl.2 := by
  have h := map_page_rank_foldl_containsKey pages page_ranks [] node
  simpa [containsKey] using h

theorem map_page_rank_foldl_nodup (pages : List (String × List String))
    (page_ranks : List (String × ℚ)) (acc : List (String × ℚ))
    (h : (keys acc).Nodup) :
    (keys (pages.foldl
        (fun contributions pl =>
          if 0 < pl.2.length ∧ containsKey page_ranks pl.1 = true then
            pl.2.foldl
              (fun c link =>
                dadd c link
                  ((dlookup page_ranks pl.1).getD 0 / (pl.2.length : ℚ)))
              contributions
          else contributions)
        acc)).Nodup := by
  induction pages generalizing acc with
  | nil => exact h
  | cons pl t ih =>
      rw [List.foldl_cons]
      by_cases hc : 0 < pl.2.length ∧ containsKey page_ranks pl.1 = true
      · rw [if_pos hc]
        exact ih _ (foldl_dadd_nodup _ _ _ h)
      · rw [if_neg hc]
        exact ih _ h

theorem map_page_rank_nodup (pages : List (String × List String))
    (page_ranks : List (String × ℚ)) :
    (keys (map_page_rank pages page_ranks)).Nodup :=
  map_page_rank_foldl_nodup pages page_ranks [] List.nodup_nil

theorem map_page_rank_nonneg (pages : List (String × List String))
    (page_ranks : List (String × ℚ)) (h : ∀ p ∈ page_ranks, 0 ≤ p.2) :
    ∀ p ∈ map_page_rank pages page_ranks, 0 ≤ p.2 := by
  have haux : ∀ (acc : List (String × ℚ)), (∀ p ∈ acc, 0 ≤ p.2) →
      ∀ p ∈ pages.foldl
        (fun contributions pl =>
          if 0 < pl.2.length ∧ containsKey page_ranks pl.1 = true then
            pl.2.foldl
              (fun c link =>
                dadd c link
                  ((dlookup page_ranks pl.1).getD 0 / (pl.2.length : ℚ)))
              contributions
          else contributions)
        acc, 0 ≤ p.2 := by
    induction pages with
    | nil => exact fun acc hacc => hacc
    | cons pl t ih =>
        intro acc hacc
        rw [List.foldl_cons]
        by_cases hc : 0 < pl.2.length ∧ containsKey page_ranks pl.1 = true
        · rw [if_pos hc]
          apply ih
          apply foldl_dadd_nonneg _ _ _ hacc
          intro x hx
          exact div_nonneg (dlookup_getD_nonneg page_ranks pl.1 h)
            (Nat.cast_nonneg _)
        · rw [if_neg hc]
          exact ih _ hacc
  exact haux [] (by simp)

/-! ### Characterization of `reduce_page_rank` -/

theorem reduce_dlookup (c : List (String × ℚ)) (dmp n : ℚ) (k : String)
    (hnd : (keys c).Nodup) :
    dlookup (reduce_page_rank c dmp n) k
      = (dlookup c k).map (fun v => (1 - dmp) / n + dmp * v) := by
  show dlookup
      (c.foldl (fun nr pc => dadd nr pc.1 (dmp * pc.2))
        (c.map (fun pc => (pc.1, (1 - dmp) / n)))) k = _
  cases hc : dlookup c k with
  | none =>
      rw [foldl_dadd_pairs_of_none _ _ _ _ hc, dlookup_mapVal, hc]
      rfl
  | some v =>
      rw [foldl_dadd_pairs_of_some _ _ _ _ _ hnd hc, dlookup_mapVal, hc,
        Option.map_some', Option.map_some', Option.getD_some]

theorem containsKey_reduce (c : List (String × ℚ)) (dmp n : ℚ) (k : String)
    (hnd : (keys c).Nodup) :
    containsKey (reduce_page_rank c dmp n) k = containsKey c k := by
  rw [containsKey, containsKey, reduce_dlookup c dmp n k hnd]
  cases dlookup c k <;> rfl

theorem reduce_nonneg (c : List (String × ℚ)) (n : ℚ) (hn : 0 ≤ n)
    (hc : ∀ p ∈ c, 0 ≤ p.2) :
    ∀ p ∈ reduce_page_rank c (17/20) n, 0 ≤ p.2 := by
  show ∀ p ∈ c.foldl (fun nr pc => dadd nr pc.1 ((17/20) * pc.2))
      (c.map (fun pc => (pc.1, (1 - 17/20) / n))), 0 ≤ p.2
  apply foldl_dadd_pairs_nonneg
  · intro p hp
    rcases List.mem_map.mp hp with ⟨q, hq, rfl⟩
    show (0 : ℚ) ≤ (1 - 17/20) / n
    apply div_nonneg _ hn
    norm_num
  · intro pc hpc
    exact mul_nonneg (by norm_num) (hc pc hpc)

/-! ### The iteration loop -/

theorem pageRankLoop_succ (pages : List (String × List String)) (n : ℚ)
    (k : ℕ) (pr : List (String × ℚ)) :
    pageRankLoop pages n (k + 1) pr
      = reduce_page_rank (map_page_rank pages (pageRankLoop pages n k pr))
          (17/20) n := by
  induction k generalizing pr with
  | zero => rfl
  | succ j ih =>
      have h1 : pageRankLoop pages n (j + 1 + 1) pr
          = pageRankLoop pages n (j + 1)
              (reduce_page_rank (map_page_rank pages pr) (17/20) n) := rfl
      rw [h1, ih]
      rfl

theorem calculate_zero (pages : List (String × List String))
    (all_links : List String) :
    calculate_page_rank pages all_links 0
      = initialize_page_ranks pages all_links := rfl

theorem calculate_succ (pages : List (String × List String))
    (all_links : List String) (k : ℕ) :
    calculate_page_rank pages all_links (k + 1)
      = reduce_page_rank
          (map_page_rank pages (calculate_page_rank pages all_links k))
          (17/20)
          (((initialize_page_ranks pages all_links).length : ℚ)) := by
  show pageRankLoop pages (((initialize_page_ranks pages all_links).length : ℚ))
      (k + 1) (initialize_page_ranks pages all_links) = _
  rw [pageRankLoop_succ]
  rfl

/-! ### Lemmas about `initialize_page_ranks` -/

theorem foldl_extend_values (q : ℚ) (links : List String)
    (acc : List (String × ℚ)) (h : ∀ p ∈ acc, p.2 = q) :
    ∀ p ∈ links.foldl
      (fun pr2 link =>
        if containsKey pr2 link then pr2 else pr2 ++ [(link, q)]) acc,
      p.2 = q := by
  induction links generalizing acc with
  | nil => exact h
  | cons x t ih =>
      rw [List.foldl_cons]
      by_cases hc : containsKey acc x
      · rw [if_pos hc]
        exact ih _ h
      · rw [if_neg hc]
        apply ih
        intro p hp
        rcases List.mem_append.mp hp with hp | hp
        · exact h p hp
        · rw [List.mem_singleton.mp hp]

theorem foldl_extend_pages_values (q : ℚ)
    (pages : List (String × List String)) (acc : List (String × ℚ))
    (h : ∀ p ∈ acc, p.2 = q) :
    ∀ p ∈ pages.foldl
      (fun pr pl =>
        pl.2.foldl
          (fun pr2 link =>
            if containsKey pr2 link then pr2 else pr2 ++ [(link, q)]) pr)
      acc, p.2 = q := by
  induction pages generalizing acc with
  | nil => exact h
  | cons pl t ih =>
      rw [List.foldl_cons]
      exact ih _ (foldl_extend_values q pl.2 acc h)

theorem initialize_values (pages : List (String × List String))
    (all_links : List String) :
    ∀ p ∈ initialize_page_ranks pages all_links,
      p.2 = 1 / (if all_links.isEmpty then 1 else (all_links.length : ℚ)) := by
  intro p hp
  simp only [initialize_page_ranks] at hp
  apply foldl_extend_pages_values _ pages _ _ p hp
  intro r hr
  rcases List.mem_map.mp hr with ⟨x, hx, rfl⟩
  rfl

theorem dlookup_const_map (l : List String) (q : ℚ) (node : String)
    (h : node ∈ l) :
    dlookup (l.map (fun page => (page, q))) node = some q := by
  induction l with
  | nil => simp at h
  | cons x t ih =>
      rw [List.map_cons, dlookup_cons]
      by_cases hx : x = node
      · rw [if_pos hx]
      · rw [if_neg hx]
        exact ih (List.mem_cons.mp h |>.resolve_left (fun he => hx he.symm))

theorem foldl_extend_preserves (q : ℚ) (links : List String)
    (acc : List (String × ℚ)) (node : String) (v : ℚ)
    (h : dlookup acc node = some v) :
    dlookup (links.foldl
      (fun pr2 link =>
        if containsKey pr2 link then pr2 else pr2 ++ [(link, q)]) acc) node
      = some v := by
  induction links generalizing acc with
  | nil => exact h
  | cons x t ih =>
      rw [List.foldl_cons]
      by_cases hc : containsKey acc x
      · rw [if_pos hc]
        exact ih _ h
      · rw [if_neg hc]
        exact ih _ (dlookup_append_of_some _ _ _ _ h)

theorem foldl_extend_pages_preserves (q : ℚ)
    (pages : List (String × List String)) (acc : List (String × ℚ))
    (node : String) (v : ℚ) (h : dlookup acc node = some v) :
    dlookup (pages.foldl
      (fun pr pl =>
        pl.2.foldl
          (fun pr2 link =>
            if containsKey pr2 link then pr2 else pr2 ++ [(link, q)]) pr)
      acc) node = some v := by
  induction pages generalizing acc with
  | nil => exact h
  | cons pl t ih =>
      rw [List.foldl_cons]
      exact ih _ (foldl_extend_preserves q pl.2 acc node v h)

theorem initialize_dlookup_mem (pages : List (String × List String))
    (all_links : List String) (node : String) (h : node ∈ all_links) :
    dlookup (initialize_page_ranks pages all_links) node
      = some (1 / (if all_links.isEmpty then 1 else (all_links.length : ℚ))) := by
  show dlookup (List.foldl _ _ pages) node = _
  apply foldl_extend_pages_preserves
  exact dlookup_const_map all_links _ node h

theorem initialize_nonneg (pages : List (String × List String))
    (all_links : List String) :
    ∀ p ∈ initialize_page_ranks pages all_links, 0 ≤ p.2 := by
  intro p hp
  rw [initialize_values pages all_links p hp]
  by_cases he : all_links.isEmpty
  · rw [if_pos he]
    norm_num
  · rw [if_neg he]
    exact div_nonneg zero_le_one (Nat.cast_nonneg _)

theorem pageRankLoop_nonneg (pages : List (String × List String)) (n : ℚ)
    (hn : 0 ≤ n) (k : ℕ) (pr : List (String × ℚ))
    (h : ∀ p ∈ pr, 0 ≤ p.2) :
    ∀ p ∈ pageRankLoop pages n k pr, 0 ≤ p.2 := by
  induction k generalizing pr with
  | zero => exact h
  | succ j ih =>
      show ∀ p ∈ pageRankLoop pages n j
        (reduce_page_rank (map_page_rank pages pr) (17/20) n), 0 ≤ p.2
      exact ih _ (reduce_nonneg _ n hn (map_page_rank_nonneg pages pr h))

/-! ### Sorting lemmas -/

theorem insertDesc_perm (a : String × ℚ) (l : List (String × ℚ)) :
    List.Perm (insertDesc a l) (a :: l) := by
  induction l with
  | nil => exact List.Perm.refl _
  | cons b t ih =>
      show List.Perm (if a.2 < b.2 then b :: insertDesc a t else a :: b :: t)
        (a :: b :: t)
      by_cases h : a.2 < b.2
      · rw [if_pos h]
        exact (List.Perm.cons b ih).trans (List.Perm.swap a b t)
      · rw [if_neg h]

theorem sortDesc_perm (l : List (String × ℚ)) :
    List.Perm (sortDesc l) l := by
  induction l with
  | nil => exact List.Perm.refl _
  | cons a t ih =>
      show List.Perm (insertDesc a (sortDesc t)) (a :: t)
      exact (insertDesc_perm a (sortDesc t)).trans (List.Perm.cons a ih)

theorem insertDesc_sorted (a : String × ℚ) (l : List (String × ℚ))
    (h : List.Pairwise (fun x y => y.2 ≤ x.2) l) :
    List.Pairwise (fun x y => y.2 ≤ x.2) (insertDesc a l) := by
  induction l with
  | nil => simp [insertDesc]
  | cons b t ih =>
      rw [List.pairwise_cons] at h
      show List.Pairwise _ (if a.2 < b.2 then b :: insertDesc a t else a :: b :: t)
      by_cases hab : a.2 < b.2
      · rw [if_pos hab, List.pairwise_cons]
        constructor
        · intro y hy
          have hmem := (insertDesc_perm a t).mem_iff.mp hy
          rcases List.mem_cons.mp hmem with rfl | hyt
          · exact le_of_lt hab
          · exact h.1 y hyt
        · exact ih h.2
      · rw [if_neg hab]
        push_neg at hab
        rw [List.pairwise_cons]
        constructor
        · intro y hy
          rcases List.mem_cons.mp hy with rfl | hyt
          · exact hab
          · exact le_trans (h.1 y hyt) hab
        · exact List.pairwise_cons.mpr h

theorem sortDesc_sorted (l : List (String × ℚ)) :
    List.Pairwise (fun x y => y.2 ≤ x.2) (sortDesc l) := by
  induction l with
  | nil => simp [sortDesc]
  | cons a t ih => exact insertDesc_sorted a (sortDesc t) ih

/-! ### Lemmas about `search_totals` and `search` -/

theorem mem_keys_of_mem {α : Type} (d : List (String × α)) (k : String)
    (v : α) (h : (k, v) ∈ d) : k ∈ keys d :=
  List.mem_map_of_mem Prod.fst h

theorem dlookup_of_mem_nodup {α : Type} (d : List (String × α)) (k : String)
    (v : α) (hnd : (keys d).Nodup) (h : (k, v) ∈ d) :
    dlookup d k = some v := by
  induction d with
  | nil => simp at h
  | cons p rest ih =>
      rw [keys_cons, List.nodup_cons] at hnd
      rcases List.mem_cons.mp h with rfl | hmem
      · rw [dlookup_cons, if_pos rfl]
      · have hne : ¬ p.1 = k :=
          fun he => hnd.1 (he ▸ mem_keys_of_mem rest k v hmem)
        rw [dlookup_cons, if_neg hne]
        exact ih hnd.2 hmem

theorem terms_foldl_getD (inverted_index : List (String × List String))
    (page_ranks : List (String × ℚ)) (terms : List String)
    (acc : List (String × ℚ)) (doc : String) :
    (dlookup (terms.foldl
        (fun results term =>
          match dlookup inverted_index term with
          | some postings =>
              postings.foldl
                (fun r page => dadd r page ((dlookup page_ranks page).getD 0))
                results
          | none => results)
        acc) doc).getD 0
      = (dlookup acc doc).getD 0
        + (terms.map (specTermScore inverted_index page_ranks doc)).sum := by
  induction terms generalizing acc with
  | nil => simp
  | cons term t ih =>
      rw [List.foldl_cons, ih]
      cases hterm : dlookup inverted_index term with
      | none =>
          simp only [hterm, List.map_cons, List.sum_cons]
          rw [specTermScore, hterm]
          ring
      | some postings =>
          simp only [hterm, List.map_cons, List.sum_cons]
          rw [foldl_dadd_getD, specTermScore, hterm]
          ring

theorem search_totals_getD (norm : String → String) (query : String)
    (inverted_index : List (String × List String))
    (page_ranks : List (String × ℚ)) (doc : String) :
    (dlookup (search_totals norm query inverted_index page_ranks) doc).getD 0
      = specQueryScore norm query inverted_index page_ranks doc := by
  have h := terms_foldl_getD inverted_index page_ranks
    ((pySplit query).map norm) [] doc
  simp only [dlookup_nil, Option.getD_none, zero_add] at h
  exact h

theorem terms_foldl_nodup (inverted_index : List (String × List String))
    (page_ranks : List (String × ℚ)) (terms : List String)
    (acc : List (String × ℚ)) (h : (keys acc).Nodup) :
    (keys (terms.foldl
        (fun results term =>
          match dlookup inverted_index term with
          | some postings =>
              postings.foldl
                (fun r page => dadd r page ((dlookup page_ranks page).getD 0))
                results
          | none => results)
        acc)).Nodup := by
  induction terms generalizing acc with
  | nil => exact h
  | cons term t ih =>
      rw [List.foldl_cons]
      cases hterm : dlookup inverted_index term with
      | none =>
          simp only [hterm]
          exact ih _ h
      | some postings =>
          simp only [hterm]
          exact ih _ (foldl_dadd_nodup _ _ _ h)

theorem search_totals_nodup (norm : String → String) (query : String)
    (inverted_index : List (String × List String))
    (page_ranks : List (String × ℚ)) :
    (keys (search_totals norm query inverted_index page_ranks)).Nodup :=
  terms_foldl_nodup inverted_index page_ranks ((pySplit query).map norm) []
    List.nodup_nil

theorem search_mem_iff (norm : String → String) (query : String)
    (inverted_index : List (String × List String))
    (page_ranks : List (String × ℚ)) (d : String) (s : ℚ) :
    (d, s) ∈ search norm query inverted_index page_ranks ↔
      (dlookup (search_totals norm query inverted_index page_ranks) d = some s
        ∧ 0 < s) := by
  rw [search, (sortDesc_perm _).mem_iff, List.mem_filter]
  constructor
  · rintro ⟨hmem, hpos⟩
    refine ⟨dlookup_of_mem_nodup _ _ _ (search_totals_nodup norm query _ _) hmem, ?_⟩
    simpa using hpos
  · rintro ⟨hl, hpos⟩
    exact ⟨mem_of_dlookup _ _ _ hl, by simpa using hpos⟩

theorem terms_foldl_no_match (inverted_index : List (String × List String))
    (page_ranks : List (String × ℚ)) (terms : List String)
    (acc : List (String × ℚ))
    (h : ∀ term ∈ terms, containsKey inverted_index term = false) :
    terms.foldl
        (fun results term =>
          match dlookup inverted_index term with
          | some postings =>
              postings.foldl
                (fun r page => dadd r page ((dlookup page_ranks page).getD 0))
                results
          | none => results)
        acc = acc := by
  induction terms generalizing acc with
  | nil => rfl
  | cons term t ih =>
      rw [List.foldl_cons]
      cases hterm : dlookup inverted_index term with
      | none =>
          simp only [hterm]
          exact ih _ (fun x hx => h x (List.mem_cons_of_mem term hx))
      | some postings =>
          have := h term (List.mem_cons_self term t)
          rw [containsKey, hterm] at this
          simp at this

/-! ### Lemmas about `read_html_files` -/

theorem insert_fold_mem (links : List String) (s : List String) (x : String) :
    x ∈ links.foldl (fun s2 link => if link ∈ s2 then s2 else s2 ++ [link]) s
      ↔ (x ∈ s ∨ x ∈ links) := by
  induction links generalizing s with
  | nil => simp
  | cons l t ih =>
      rw [List.foldl_cons]
      by_cases hl : l ∈ s
      · rw [if_pos hl, ih]
        constructor
        · rintro (h | h)
          · exact Or.inl h
          · exact Or.inr (List.mem_cons_of_mem l h)
        · rintro (h | h)
          · exact Or.inl h
          · rcases List.mem_cons.mp h with rfl | h2
            · exact Or.inl hl
            · exact Or.inr h2
      · rw [if_neg hl, ih]
        simp only [List.mem_append, List.mem_singleton, List.mem_cons]
        tauto

theorem insert_fold_nodup (links : List String) (s : List String)
    (h : s.Nodup) :
    (links.foldl (fun s2 link => if link ∈ s2 then s2 else s2 ++ [link])
      s).Nodup := by
  induction links generalizing s with
  | nil => exact h
  | cons l t ih =>
      rw [List.foldl_cons]
      by_cases hl : l ∈ s
      · rw [if_pos hl]
        exact ih _ h
      · rw [if_neg hl]
        apply ih
        simp [List.nodup_append, h, hl]

theorem read_fold_snd (files : List (String × List String))
    (acc : List (String × List String) × List String) :
    (files.foldl
      (fun acc2 f =>
        (acc2.1 ++ [f],
         f.2.foldl (fun s link => if link ∈ s then s else s ++ [link]) acc2.2))
      acc).2
      = files.foldl
          (fun s f =>
            f.2.foldl (fun s2 link => if link ∈ s2 then s2 else s2 ++ [link]) s)
          acc.2 := by
  induction files generalizing acc with
  | nil => rfl
  | cons f t ih => rw [List.foldl_cons, List.foldl_cons, ih]

theorem files_fold_mem (files : List (String × List String))
    (s : List String) (x : String) :
    x ∈ files.foldl
        (fun s2 f =>
          f.2.foldl (fun s3 link => if link ∈ s3 then s3 else s3 ++ [link]) s2)
        s
      ↔ (x ∈ s ∨ ∃ f ∈ files, x ∈ f.2) := by
  induction files generalizing s with
  | nil => simp
  | cons f t ih =>
      rw [List.foldl_cons, ih, insert_fold_mem]
      constructor
      · rintro ((h | h) | ⟨g, hg, hx⟩)
        · exact Or.inl h
        · exact Or.inr ⟨f, List.mem_cons_self f t, h⟩
        · exact Or.inr ⟨g, List.mem_cons_of_mem f hg, hx⟩
      · rintro (h | ⟨g, hg, hx⟩)
        · exact Or.inl (Or.inl h)
        · rcases List.mem_cons.mp hg with rfl | hg2
          · exact Or.inl (Or.inr hx)
          · exact Or.inr ⟨g, hg2, hx⟩

theorem files_fold_nodup (files : List (String × List String))
    (s : List String) (h : s.Nodup) :
    (files.foldl
        (fun s2 f =>
          f.2.foldl (fun s3 link => if link ∈ s3 then s3 else s3 ++ [link]) s2)
        s).Nodup := by
  induction files generalizing s with
  | nil => exact h
  | cons f t ih =>
      rw [List.foldl_cons]
      exact ih _ (insert_fold_nodup f.2 s h)

/-! ### Claim theorems -/

/-- C1: after every iteration of the rank computation, the table produced
by the reduce phase has as its domain exactly the set of nodes that
received at least one contribution in that iteration's map phase
(equivalently: some page with a nonempty link list and a current score
links to the node), and maps each such node to
`(1 - 0.85)/N + 0.85 * (sum of its contributions)` where `N` is the size
of the initialized table; a node with zero contributions is absent from
the new table (`dlookup` is `none`), its prior score not carried
forward. -/
theorem C1_reduce_domain_and_values (pages : List (String × List String))
    (all_links : List String) (k : ℕ) (node : String) :
    (containsKey (calculate_page_rank pages all_links (k + 1)) node
      = containsKey
          (map_page_rank pages (calculate_page_rank pages all_links k)) node)
    ∧ (containsKey
          (map_page_rank pages (calculate_page_rank pages all_links k)) node
            = true ↔
        ∃ pl ∈ pages, 0 < pl.2.length
          ∧ containsKey (calculate_page_rank pages all_links k) pl.1 = true
          ∧ node ∈ pl.2)
    ∧ dlookup (calculate_page_rank pages all_links (k + 1)) node
        = (dlookup
            (map_page_rank pages (calculate_page_rank pages all_links k))
            node).map
            (fun c =>
              (1 - 17/20) / ((initialize_page_ranks pages all_links).length : ℚ)
                + (17/20) * c)
    ∧ (dlookup
          (map_page_rank pages (calculate_page_rank pages all_links k))
          node).getD 0
        = specContribSum pages (calculate_page_rank pages all_links k) node := by
  refine ⟨?_, map_page_rank_containsKey _ _ _, ?_, map_page_rank_getD _ _ _⟩
  · rw [calculate_succ]
    exact containsKey_reduce _ _ _ _ (map_page_rank_nodup _ _)
  · rw [calculate_succ]
    exact reduce_dlookup _ _ _ _ (map_page_rank_nodup _ _)

/-- C2: in every map phase, a page with at least one outgoing link and a
current score adds `score(page)/outDegree(page)` to the accumulated
contribution of each link target, once per occurrence of the target in
its link list; pages with zero links or without a current score
contribute nothing (their summand is 0 and they create no entry). -/
theorem C2_map_phase_contributions (pages : List (String × List String))
    (page_ranks : List (String × ℚ)) (node : String) :
    (dlookup (map_page_rank pages page_ranks) node).getD 0
      = specContribSum pages page_ranks node
    ∧ (containsKey (map_page_rank pages page_ranks) node = true ↔
        ∃ pl ∈ pages, 0 < pl.2.length
          ∧ containsKey page_ranks pl.1 = true ∧ node ∈ pl.2) :=
  ⟨map_page_rank_getD pages page_ranks node,
    map_page_rank_containsKey pages page_ranks node⟩

/-- C3: with an iteration count of 0, the rank computation returns the
initialization table; every node of the (duplicate-free) all-links set
has an entry of score `1/N`, and every entry of the table has score
`1/N`, where `N` is the number of nodes of the all-links set, floored to
1 when that set is empty. -/
theorem C3_zero_iterations (pages : List (String × List String))
    (all_links : List String) (_hset : all_links.Nodup) :
    calculate_page_rank pages all_links 0
        = initialize_page_ranks pages all_links
    ∧ (∀ node ∈ all_links,
        dlookup (calculate_page_rank pages all_links 0) node
          = some (1 /
              (if all_links.isEmpty then 1 else (all_links.length : ℚ))))
    ∧ (∀ p ∈ calculate_page_rank pages all_links 0,
        p.2 = 1 / (if all_links.isEmpty then 1 else (all_links.length : ℚ))) := by
  refine ⟨calculate_zero pages all_links, ?_, ?_⟩
  · intro node hn
    rw [calculate_zero]
    exact initialize_dlookup_mem pages all_links node hn
  · intro p hp
    rw [calculate_zero] at hp
    exact initialize_values pages all_links p hp

/-- C3, witness: concrete instance with `pages = {}`,
`all_links = {"a"}`. -/
theorem C3_zero_iterations_witness :
    List.Nodup ["a"]
    ∧ dlookup (calculate_page_rank [] ["a"] 0) "a"
        = some (1 / (if (["a"] : List String).isEmpty then 1
            else (((["a"] : List String).length) : ℚ))) :=
  ⟨by decide, (C3_zero_iterations [] ["a"] (by decide)).2.1 "a" (by decide)⟩

/-- C4 as stated is false on the code: for the corpus consisting of the
single document `a.html` with no outgoing links, the returned all-nodes
set is empty, though the claim requires it to contain the document id
`a.html`. -/
theorem C4_counterexample :
    (read_html_files [("a.html", ([] : List String))]).1
        = [("a.html", ([] : List String))]
    ∧ ¬ "a.html" ∈ (read_html_files [("a.html", ([] : List String))]).2 := by
  constructor
  · rfl
  · decide

/-- C4, amended: the set returned by the graph builder consists exactly
of the identifiers appearing as link targets, deduplicated; a document
id belongs to it only if some document links to it. -/
theorem C4_all_links_characterization (files : List (String × List String))
    (x : String) :
    (x ∈ (read_html_files files).2 ↔ ∃ f ∈ files, x ∈ f.2)
    ∧ (read_html_files files).2.Nodup := by
  have h2 : (read_html_files files).2
      = files.foldl
          (fun s f =>
            f.2.foldl (fun s2 link => if link ∈ s2 then s2 else s2 ++ [link]) s)
          [] :=
    read_fold_snd files ([], [])
  rw [h2]
  constructor
  · rw [files_fold_mem]
    simp
  · exact files_fold_nodup files [] List.nodup_nil

/-- C5 as stated is false on the code: the node `a` is given a score at
initialization, yet after one iteration it has no entry any more (with
no documents, it receives no contribution and is dropped). -/
theorem C5_counterexample :
    containsKey (calculate_page_rank [] ["a"] 0) "a" = true
    ∧ containsKey (calculate_page_rank [] ["a"] 1) "a" = false :=
  ⟨by decide, by decide⟩

/-- C5, amended: a node retains an entry after an iteration exactly when
it received at least one contribution in that iteration's map phase;
nodes with zero contributions — dangling targets included — are dropped
even if they were scored at initialization. -/
theorem C5_retention_iff_contribution (pages : List (String × List String))
    (all_links : List String) (k : ℕ) (node : String) :
    containsKey (calculate_page_rank pages all_links (k + 1)) node
      = containsKey
          (map_page_rank pages (calculate_page_rank pages all_links k)) node := by
  rw [calculate_succ]
  exact containsKey_reduce _ _ _ _ (map_page_rank_nodup _ _)

/-- C6 as stated is false on the code: with the query `"a a"`, index
`{"a": ["d"]}` and ranks `{"d": 1}`, the code returns score 2 for `d`
(each occurrence of a query term counts), while the spec's
distinct-terms score is 1. -/
theorem C6_counterexample :
    search (fun s => s) "a a" [("a", ["d"])] [("d", 1)] = [("d", 2)]
    ∧ specDistinctScore (fun s => s) "a a" [("a", ["d"])] [("d", 1)] "d" = 1
    ∧ (2 : ℚ) ≠ 1 := by
  have hsplit : pySplit "a a" = ["a", "a"] := by decide
  refine ⟨?_, ?_, by norm_num⟩
  · norm_num [search, search_totals, hsplit, dlookup, dadd, sortDesc, insertDesc]
  · norm_num [specDistinctScore, specTermScore, hsplit, dlookup, countOcc,
      List.dedup]

/-- C6, amended: a pair `(doc, s)` is returned by `search` exactly when
`doc` was touched by some matched posting and `s`, which is positive, is
the sum over ALL query term occurrences (not deduplicated) of `doc`'s
rank (0 when absent from the rank table) once per posting occurrence. -/
theorem C6_score_per_term_occurrence (norm : String → String) (query : String)
    (inverted_index : List (String × List String))
    (page_ranks : List (String × ℚ)) (doc : String) (s : ℚ) :
    (doc, s) ∈ search norm query inverted_index page_ranks ↔
      (containsKey (search_totals norm query inverted_index page_ranks) doc
          = true
        ∧ s = specQueryScore norm query inverted_index page_ranks doc
        ∧ 0 < s) := by
  rw [search_mem_iff]
  constructor
  · rintro ⟨hl, hpos⟩
    refine ⟨by rw [containsKey, hl]; rfl, ?_, hpos⟩
    rw [← search_totals_getD norm query inverted_index page_ranks doc, hl,
      Option.getD_some]
  · rintro ⟨hck, hs, hpos⟩
    refine ⟨?_, hpos⟩
    rcases Option.isSome_iff_exists.mp hck with ⟨v, hv⟩
    have hvs : v = s := by
      have hg := search_totals_getD norm query inverted_index page_ranks doc
      rw [hv, Option.getD_some] at hg
      rw [hs, ← hg]
    rw [hv, hvs]

/-- C7: the list returned by `search` contains exactly the documents
whose accumulated total is strictly positive (with that total as score),
in non-increasing order of score; an empty query, or a query none of
whose normalized terms is indexed, yields the empty list. -/
theorem C7_search_filter_sort (norm : String → String) (query : String)
    (inverted_index : List (String × List String))
    (page_ranks : List (String × ℚ)) :
    List.Pairwise (fun x y => y.2 ≤ x.2)
      (search norm query inverted_index page_ranks)
    ∧ (∀ d s, (d, s) ∈ search norm query inverted_index page_ranks ↔
        (dlookup (search_totals norm query inverted_index page_ranks) d
            = some s
          ∧ 0 < s))
    ∧ (query = "" → search norm query inverted_index page_ranks = [])
    ∧ ((∀ term ∈ (pySplit query).map norm,
          containsKey inverted_index term = false) →
        search norm query inverted_index page_ranks = []) := by
  refine ⟨sortDesc_sorted _,
    fun d s => search_mem_iff norm query inverted_index page_ranks d s, ?_, ?_⟩
  · rintro rfl
    rfl
  · intro h
    have ht : search_totals norm query inverted_index page_ranks = [] :=
      terms_foldl_no_match inverted_index page_ranks
        ((pySplit query).map norm) [] h
    show sortDesc ((search_totals norm query inverted_index page_ranks).filter
      (fun pr => 0 < pr.2)) = []
    rw [ht]
    rfl

/-- C7, witness: the empty query on a nonempty index returns the empty
list. -/
theorem C7_search_filter_sort_witness :
    search (fun s => s) "" [("a", ["d"])] [("d", 1)] = [] :=
  (C7_search_filter_sort (fun s => s) "" [("a", ["d"])] [("d", 1)]).2.2.1 rfl

/-- C8: for the single node `a` with one self-link, the rank table after
every iteration count `k ≥ 1` is exactly `{a: 1}` — the score
`(1 - 0.85)/1 + 0.85·1 = 1` is reached after the first iteration and is
stable afterwards. -/
theorem C8_self_link_stable (k : ℕ) (h : 1 ≤ k) :
    calculate_page_rank [("a", ["a"])] ["a"] k = [("a", 1)] := by
  have hstep : reduce_page_rank (map_page_rank [("a", ["a"])] [("a", 1)])
      (17/20) ((initialize_page_ranks [("a", ["a"])] ["a"]).length : ℚ)
        = [("a", 1)] := by
    norm_num [reduce_page_rank, map_page_rank, initialize_page_ranks,
      containsKey, dlookup, dadd]
  induction k with
  | zero => exact absurd h (by norm_num)
  | succ j ih =>
      rw [calculate_succ]
      rcases Nat.eq_zero_or_pos j with rfl | hj
      · have h0 : calculate_page_rank [("a", ["a"])] ["a"] 0 = [("a", 1)] := by
          norm_num [calculate_page_rank, pageRankLoop, initialize_page_ranks,
            containsKey, dlookup]
        rw [h0, hstep]
      · rw [ih hj, hstep]

/-- C8, witness: the concrete value after the first iteration. -/
theorem C8_self_link_stable_witness :
    calculate_page_rank [("a", ["a"])] ["a"] 1 = [("a", 1)] :=
  C8_self_link_stable 1 (by decide)

/-- C9: every score is non-negative, at initialization and after every
iteration of the map/reduce loop. -/
theorem C9_scores_nonneg (pages : List (String × List String))
    (all_links : List String) (k : ℕ) :
    (∀ p ∈ initialize_page_ranks pages all_links, 0 ≤ p.2)
    ∧ (∀ p ∈ calculate_page_rank pages all_links k, 0 ≤ p.2) := by
  refine ⟨initialize_nonneg pages all_links, ?_⟩
  show ∀ p ∈ pageRankLoop pages
    ((initialize_page_ranks pages all_links).length : ℚ) k
    (initialize_page_ranks pages all_links), 0 ≤ p.2
  exact pageRankLoop_nonneg pages _ (Nat.cast_nonneg _) k _
    (initialize_nonneg pages all_links)

/-- C9, witness: concrete instance, the score of `a` in
`calculate_page_rank {} {"a"} 0`. -/
theorem C9_scores_nonneg_witness : (0 : ℚ) ≤ 1 :=
  (C9_scores_nonneg [] ["a"] 0).2 ("a", 1)
    (by simp [calculate_page_rank, pageRankLoop, initialize_page_ranks])

/-- C10: each document identifier appears at most once in the list
returned by `search`, however often it occurs across posting lists. -/
theorem C10_no_duplicate_documents (norm : String → String) (query : String)
    (inverted_index : List (String × List String))
    (page_ranks : List (String × ℚ)) :
    ((search norm query inverted_index page_ranks).map Prod.fst).Nodup := by
  have h1 : (keys (search_totals norm query inverted_index page_ranks)).Nodup :=
    search_totals_nodup norm query inverted_index page_ranks
  have h2 : (keys ((search_totals norm query inverted_index page_ranks).filter
      (fun pr => 0 < pr.2))).Nodup := by
    apply List.Nodup.sublist _ h1
    exact List.Sublist.map Prod.fst (List.filter_sublist _)
  have h3 : List.Perm
      ((search norm query inverted_index page_ranks).map Prod.fst)
      (((search_totals norm query inverted_index page_ranks).filter
        (fun pr => 0 < pr.2)).map Prod.fst) :=
    (sortDesc_perm _).map Prod.fst
  exact h3.nodup_iff.mpr h2

end Recherche
